import Mathlib

/-!
Verification of the Causing effects-algebra and estimation utilities.

Shallow embedding of the numeric core of `utils.py` (the Causing package):
identification matrices, the vectorization/matricization maps between sparse
coefficient matrices and free-parameter vectors, algebraic total effects,
mediation effects and their standard deviations, the vec-matrix operator for
Jacobians, the convergence bookkeeping of the AD optimization loop, and the
post-estimation identification assertions.

Matrices are `Matrix (Fin n) (Fin m) ℚ` (exact rational arithmetic standing in
for float64); numpy/torch exceptions are modelled with `Except`/`Option`.
-/

namespace Causing

/-- Dense coefficient matrix, as in numpy: `n` rows (equations), `m` columns. -/
abbrev Mat (n m : ℕ) : Type := Matrix (Fin n) (Fin m) ℚ

/-- Row-major enumeration of index pairs (row outer, column inner).
This is the iteration order of the `for i in range(ndim): for j in range(...)`
loops in `directvec` and `coeffmat`. -/
def posRM (n m : ℕ) : List (Fin n × Fin m) :=
  (List.finRange n).product (List.finRange m)

/-- Column-major enumeration of index pairs (column outer, row inner).
This is the order in which numpy boolean mask indexing on the transpose,
`mz.T[mask.T == 1]`, visits the entries of `mz` in `directvec_alg` and
`directmat`, and the loop order `for col: for row:` of `vecmat`. -/
def posCM (n m : ℕ) : List (Fin n × Fin m) :=
  ((List.finRange m).product (List.finRange n)).map Prod.swap

/-- Positions of a mask equal to 1, in the given enumeration order
(`mask[i, j] == 1` tests in the source). -/
def maskPos {n m : ℕ} (ord : List (Fin n × Fin m)) (idm : Mat n m) :
    List (Fin n × Fin m) :=
  ord.filter fun p => decide (idm p.1 p.2 = 1)

/-- Positions of nonzero entries, in the given enumeration order
(`mz[row, col] != 0` tests in `vecmat` and `digital`). -/
def nzPos {n m : ℕ} (ord : List (Fin n × Fin m)) (mz : Mat n m) :
    List (Fin n × Fin m) :=
  ord.filter fun p => decide (mz p.1 p.2 ≠ 0)

/-- Elementwise (Hadamard) product, numpy `a * b` on same-shaped arrays. -/
def hadamard {n m : ℕ} (a b : Mat n m) : Mat n m :=
  Matrix.of fun i j => a i j * b i j

/-- A binary (0/1) identification matrix, as produced by `digital`. -/
abbrev isBinary {n m : ℕ} (a : Mat n m) : Prop :=
  ∀ i j, a i j = 0 ∨ a i j = 1

/-- `directvec(mx, my, idx, idy)` from `utils.py`: the AD-tracked
vectorization.  The Python builds the vector with a counter `k` running
through `for i in range(ndim): for j in range(ndim)` over `idy` (then likewise
over `idx`), i.e. it collects the entries at mask==1 positions in ROW-major
order, `my`-block first. -/
def directvec {n m : ℕ} (mx : Mat n m) (my : Mat n n) (idx : Mat n m)
    (idy : Mat n n) : List ℚ :=
  (maskPos (posRM n n) idy).map (fun p => my p.1 p.2) ++
    (maskPos (posRM n m) idx).map (fun p => mx p.1 p.2)

/-- `directvec_alg(mx, my, idx, idy)` from `utils.py`: the plain numeric
vectorization.  `my.T[idy.T == 1]` concatenated with `mx.T[idx.T == 1]`:
numpy boolean indexing visits `my.T` in row-major order, i.e. `my` in
COLUMN-major order. -/
def directvec_alg {n m : ℕ} (mx : Mat n m) (my : Mat n n) (idx : Mat n m)
    (idy : Mat n n) : List ℚ :=
  (maskPos (posCM n n) idy).map (fun p => my p.1 p.2) ++
    (maskPos (posCM n m) idx).map (fun p => mx p.1 p.2)

/-- Fill a zero matrix by assigning the listed values to the listed positions
in order (numpy `mat.T[mask.T == 1] = vals`).  Positions beyond the value list
keep the value 0; all source call sites supply exactly matching lengths. -/
def fillFrom {n m : ℕ} (ps : List (Fin n × Fin m)) (vals : List ℚ) : Mat n m :=
  Matrix.of fun i j =>
    (((ps.zip vals).find? fun pv => decide (pv.1 = (i, j))).map Prod.snd).getD 0

/-- `directmat(direct, idx, idy)` from `utils.py`: scatter the first
`count_nonzero(idy)` entries of `direct` into `my` at the `idy == 1` positions
in column-major order (`my.T[idy.T == 1] = direct[0:qydim]`), and the rest
into `mx` likewise; returns `(mx, my)`. -/
def directmat {n m : ℕ} (direct : List ℚ) (idx : Mat n m) (idy : Mat n n) :
    Mat n m × Mat n n :=
  let qydim := (maskPos (posCM n n) idy).length
  (fillFrom (maskPos (posCM n m) idx) (direct.drop qydim),
   fillFrom (maskPos (posCM n n) idy) (direct.take qydim))

lemma mem_posCM {n m : ℕ} (p : Fin n × Fin m) : p ∈ posCM n m := by
  have hmem : (p.2, p.1) ∈ (List.finRange m).product (List.finRange n) :=
    List.mem_product.mpr ⟨List.mem_finRange _, List.mem_finRange _⟩
  exact List.mem_map.mpr ⟨(p.2, p.1), hmem, rfl⟩

lemma mem_maskPos_iff {n m : ℕ} (idm : Mat n m) (i : Fin n) (j : Fin m) :
    (i, j) ∈ maskPos (posCM n m) idm ↔ idm i j = 1 := by
  simp [maskPos, List.mem_filter, mem_posCM]

/-- Scattering a list of values read off at a list of positions restores those
values at those positions and leaves everything else 0. -/
lemma fillFrom_map_self {n m : ℕ} (f : Fin n × Fin m → ℚ)
    (ps : List (Fin n × Fin m)) (i : Fin n) (j : Fin m) :
    fillFrom ps (ps.map f) i j = if (i, j) ∈ ps then f (i, j) else 0 := by
  induction ps with
  | nil => simp [fillFrom]
  | cons p ps ih =>
    by_cases hp : p = (i, j)
    · subst hp
      simp [fillFrom]
    · have hstep : fillFrom (p :: ps) ((p :: ps).map f) i j
          = fillFrom ps (ps.map f) i j := by
        simp [fillFrom, List.find?_cons_of_neg, hp]
      rw [hstep, ih]
      have hne : ¬((i, j) = p) := fun h => hp h.symm
      simp [List.mem_cons, hne]

/-- C2 (amended): the round trip `directmat ∘ directvec_alg` restores the
masked coefficient matrices. -/
theorem directmat_directvec_alg_roundtrip {n m : ℕ} (mx : Mat n m)
    (my : Mat n n) (idx : Mat n m) (idy : Mat n n)
    (hx : isBinary idx) (hy : isBinary idy) (_hdiag : ∀ i, idy i i = 0) :
    directmat (directvec_alg mx my idx idy) idx idy =
      (hadamard mx idx, hadamard my idy) := by
  have hlen : ((maskPos (posCM n n) idy).map fun p => my p.1 p.2).length
      = (maskPos (posCM n n) idy).length := List.length_map _ _
  have htake : (directvec_alg mx my idx idy).take
        ((maskPos (posCM n n) idy).length)
      = (maskPos (posCM n n) idy).map fun p => my p.1 p.2 := by
    rw [directvec_alg, ← hlen, List.take_left]
  have hdrop : (directvec_alg mx my idx idy).drop
        ((maskPos (posCM n n) idy).length)
      = (maskPos (posCM n m) idx).map fun p => mx p.1 p.2 := by
    rw [directvec_alg, ← hlen, List.drop_left]
  have h1 : fillFrom (maskPos (posCM n m) idx)
      ((maskPos (posCM n m) idx).map fun p => mx p.1 p.2) = hadamard mx idx := by
    ext i j
    rw [fillFrom_map_self]
    rcases hx i j with h0 | h1
    · simp [mem_maskPos_iff, h0, hadamard]
    · simp [mem_maskPos_iff, h1, hadamard]
  have h2 : fillFrom (maskPos (posCM n n) idy)
      ((maskPos (posCM n n) idy).map fun p => my p.1 p.2) = hadamard my idy := by
    ext i j
    rw [fillFrom_map_self]
    rcases hy i j with h0 | h1
    · simp [mem_maskPos_iff, h0, hadamard]
    · simp [mem_maskPos_iff, h1, hadamard]
  rw [directmat, htake, hdrop, h1, h2]

/-- Witness for the amended C2 round trip at a concrete instance. -/
theorem directmat_directvec_alg_roundtrip_witness :
    isBinary (!![1; 1] : Mat 2 1) ∧ isBinary (!![0, 1; 1, 0] : Mat 2 2) ∧
    (∀ i, (!![0, 1; 1, 0] : Mat 2 2) i i = 0) ∧
    directmat (directvec_alg (!![3; 4] : Mat 2 1) !![0, 5; 7, 0] !![1; 1]
        !![0, 1; 1, 0]) !![1; 1] !![0, 1; 1, 0] =
      (hadamard !![3; 4] !![1; 1], hadamard !![0, 5; 7, 0] !![0, 1; 1, 0]) :=
  ⟨by decide, by decide, by decide,
    directmat_directvec_alg_roundtrip _ _ _ _ (by decide) (by decide)
      (by decide)⟩

/-- C2 (counterexample to the claim as stated): with the AD-tracked
`directvec` (row-major) feeding the column-major `directmat`, the round trip
does NOT restore the masked matrices — here it returns transposed
coefficients. `idy` is binary with zero diagonal. -/
theorem directmat_directvec_not_roundtrip :
    hadamard (!![3; 4] : Mat 2 1) !![1; 1] = !![3; 4] ∧
    hadamard (!![0, 5; 7, 0] : Mat 2 2) !![0, 1; 1, 0] = !![0, 5; 7, 0] ∧
    directmat (directvec (!![3; 4] : Mat 2 1) !![0, 5; 7, 0] !![1; 1]
        !![0, 1; 1, 0]) !![1; 1] !![0, 1; 1, 0] ≠
      ((!![3; 4] : Mat 2 1), (!![0, 5; 7, 0] : Mat 2 2)) := by
  refine ⟨?_, ?_, by decide⟩
  · ext i j
    fin_cases i <;> fin_cases j <;> simp [hadamard]
  · ext i j
    fin_cases i <;> fin_cases j <;> simp [hadamard]

/-- C1 (code divergence): `directvec_alg` enumerates the free coefficients
column-major while `directvec` enumerates them row-major, so the two
vectorizations of the same matrices differ entry for entry. -/
theorem directvec_alg_ne_directvec :
    directvec_alg (!![3; 4] : Mat 2 1) !![0, 5; 7, 0] !![1; 1] !![0, 1; 1, 0]
        = [7, 5, 3, 4] ∧
    directvec (!![3; 4] : Mat 2 1) !![0, 5; 7, 0] !![1; 1] !![0, 1; 1, 0]
        = [5, 7, 3, 4] ∧
    directvec_alg (!![3; 4] : Mat 2 1) !![0, 5; 7, 0] !![1; 1] !![0, 1; 1, 0]
        ≠ directvec !![3; 4] !![0, 5; 7, 0] !![1; 1] !![0, 1; 1, 0] := by
  refine ⟨by decide, by decide, by decide⟩

/-! ## Algebraic total effects: `total_effects_alg` -/

/-- Errors raised by `total_effects_alg`: the explicit
normalization `ValueError` on a nonzero `my` diagonal, and the numpy
`LinAlgError` when `inv` is applied to a singular matrix. -/
inductive TEError : Type
  | noNormalization : TEError
  | singular : TEError
deriving DecidableEq

/-- numpy `inv` on a nonsingular rational matrix: inverse via adjugate and
the determinant (agrees with the noncomputable Mathlib `Matrix.inv` over ℚ). -/
def npinv {n : ℕ} (a : Matrix (Fin n) (Fin n) ℚ) : Matrix (Fin n) (Fin n) ℚ :=
  a.det⁻¹ • a.adjugate

lemma npinv_eq_inv {n : ℕ} (a : Matrix (Fin n) (Fin n) ℚ) : npinv a = a⁻¹ := by
  rw [npinv, Matrix.inv_def, Ring.inverse_eq_inv]

/-- `total_effects_alg(mx, my, edx, edy)` from `utils.py`: raise unless the
diagonal of `my` vanishes (`sum(abs(diag(my))) > 0`), compute
`ey = inv(eye(ndim) - my)` (raising on a singular argument) and `ex = ey @ mx`,
then, for whichever identification matrix is supplied, zero the entries at its
zero positions; for `edy` additionally `fill_diagonal(ey, 1)` afterwards. -/
def total_effects_alg {n m : ℕ} (mx : Mat n m) (my : Mat n n)
    (edx : Option (Mat n m)) (edy : Option (Mat n n)) :
    Except TEError (Mat n m × Mat n n) :=
  if 0 < ∑ i, |my i i| then .error .noNormalization
  else if (1 - my).det = 0 then .error .singular
  else
    let ey : Mat n n := npinv (1 - my)
    let ex : Mat n m := ey * mx
    let ex2 : Mat n m := match edx with
      | none => ex
      | some edxm => Matrix.of fun i j => if edxm i j = 0 then 0 else ex i j
    let ey2 : Mat n n := match edy with
      | none => ey
      | some edym => Matrix.of fun i j => if edym i j = 0 then 0 else ey i j
    let ey3 : Mat n n := match edy with
      | none => ey2
      | some _ => Matrix.of fun i j => if i = j then 1 else ey2 i j
    .ok (ex2, ey3)

lemma sum_abs_diag_pos_iff {n : ℕ} (my : Mat n n) :
    (0 < ∑ i, |my i i|) ↔ ∃ i, my i i ≠ 0 := by
  constructor
  · intro hpos
    by_contra hall
    push_neg at hall
    simp only [hall, abs_zero, Finset.sum_const_zero, lt_self_iff_false] at hpos
  · rintro ⟨i, hi⟩
    have hle : |my i i| ≤ ∑ k, |my k k| :=
      Finset.single_le_sum (fun k _ => abs_nonneg (my k k)) (Finset.mem_univ i)
    exact lt_of_lt_of_le (abs_pos.mpr hi) hle

/-- C3: `total_effects_alg` raises the normalization error exactly when some
diagonal entry of `my` is nonzero, whatever `mx`, `edx`, `edy` are. -/
theorem total_effects_alg_normalization_iff {n m : ℕ} (mx : Mat n m)
    (my : Mat n n) (edx : Option (Mat n m)) (edy : Option (Mat n n)) :
    total_effects_alg mx my edx edy = Except.error TEError.noNormalization ↔
      ∃ i, my i i ≠ 0 := by
  rw [← sum_abs_diag_pos_iff my]
  constructor
  · intro h
    by_contra hneg
    rw [total_effects_alg, if_neg hneg] at h
    by_cases hdet : (1 - my).det = 0
    · rw [if_pos hdet] at h
      exact TEError.noConfusion (Except.error.inj h)
    · rw [if_neg hdet] at h
      exact Except.noConfusion h
  · intro h
    rw [total_effects_alg, if_pos h]

/-- Witness for C3 at a concrete input: a nonzero diagonal entry of `my`
triggers the normalization error. -/
theorem total_effects_alg_normalization_witness :
    total_effects_alg (!![0; 0] : Mat 2 1) !![1, 0; 0, 0] none none =
      Except.error TEError.noNormalization :=
  (total_effects_alg_normalization_iff _ _ _ _).mpr ⟨0, by norm_num⟩

/-- Evaluation of `total_effects_alg` when both identification matrices are
supplied and the input passes both error checks. -/
lemma total_effects_alg_some_some {n m : ℕ} (mx : Mat n m) (my : Mat n n)
    (edx : Mat n m) (edy : Mat n n) (hdiag : ∀ i, my i i = 0)
    (hdet : (1 - my).det ≠ 0) :
    total_effects_alg mx my (some edx) (some edy) =
      Except.ok
        (Matrix.of fun i j => if edx i j = 0 then 0
          else (npinv (1 - my) * mx : Mat n m) i j,
         Matrix.of fun i j => if i = j then 1
          else if edy i j = 0 then 0 else npinv (1 - my) i j) := by
  have hguard : ¬(0 < ∑ i, |my i i|) := by simp [hdiag]
  rw [total_effects_alg, if_neg hguard, if_neg hdet]
  rfl

/-- C4 (amended): with zero diagonal and nonsingular `I - my`, and both
identification matrices supplied, `total_effects_alg` succeeds; the returned
`ey` is built from the genuine inverse of `I - my` (and `ex` from
`inv(I - my) @ mx`), entries of `ex` at `edx == 0` are exactly 0, OFF-DIAGONAL
entries of `ey` at `edy == 0` are exactly 0, and the diagonal of `ey` is
exactly 1 (`fill_diagonal` runs after the masking, so a zero `edy` diagonal
still yields 1, not 0). -/
theorem total_effects_alg_masked {n m : ℕ} (mx : Mat n m) (my : Mat n n)
    (edx : Mat n m) (edy : Mat n n) (hdiag : ∀ i, my i i = 0)
    (hdet : (1 - my).det ≠ 0) :
    ∃ ex ey, total_effects_alg mx my (some edx) (some edy) =
        Except.ok (ex, ey) ∧
      (1 - my) * npinv (1 - my) = 1 ∧
      npinv (1 - my) = (1 - my)⁻¹ ∧
      (∀ i j, edx i j = 0 → ex i j = 0) ∧
      (∀ i j, edx i j ≠ 0 → ex i j = (npinv (1 - my) * mx : Mat n m) i j) ∧
      (∀ i, ey i i = 1) ∧
      (∀ i j, i ≠ j → edy i j = 0 → ey i j = 0) ∧
      (∀ i j, i ≠ j → edy i j ≠ 0 → ey i j = npinv (1 - my) i j) := by
  refine ⟨Matrix.of fun i j => if edx i j = 0 then 0
      else (npinv (1 - my) * mx : Mat n m) i j,
    Matrix.of fun i j => if i = j then 1
      else if edy i j = 0 then 0 else npinv (1 - my) i j,
    total_effects_alg_some_some mx my edx edy hdiag hdet, ?_,
    npinv_eq_inv _, ?_, ?_, ?_, ?_, ?_⟩
  · rw [npinv_eq_inv]
    exact Matrix.mul_nonsing_inv _ (isUnit_iff_ne_zero.mpr hdet)
  · intro i j h0
    simp [h0]
  · intro i j h0
    simp [h0]
  · intro i
    simp
  · intro i j hij h0
    simp [hij, h0]
  · intro i j hij h0
    simp [hij, h0]

/-- Witness for the amended C4 at a concrete invertible 1×1 instance. -/
theorem total_effects_alg_masked_witness :
    (∀ i, (!![0] : Mat 1 1) i i = 0) ∧
      (1 - (!![0] : Mat 1 1)).det ≠ 0 ∧
      (∃ ex ey, total_effects_alg (!![2] : Mat 1 1) !![0] (some !![1])
          (some !![1]) = Except.ok (ex, ey) ∧
        (1 - (!![0] : Mat 1 1)) * npinv (1 - !![0]) = 1 ∧
        npinv (1 - (!![0] : Mat 1 1)) = (1 - !![0])⁻¹ ∧
        (∀ i j, (!![1] : Mat 1 1) i j = 0 → ex i j = 0) ∧
        (∀ i j, (!![1] : Mat 1 1) i j ≠ 0 →
          ex i j = (npinv (1 - !![0]) * !![2] : Mat 1 1) i j) ∧
        (∀ i, ey i i = 1) ∧
        (∀ i j, i ≠ j → (!![1] : Mat 1 1) i j = 0 → ey i j = 0) ∧
        (∀ i j, i ≠ j → (!![1] : Mat 1 1) i j ≠ 0 →
          ey i j = npinv (1 - !![0]) i j)) := by
  have hdiag : ∀ i, (!![0] : Mat 1 1) i i = 0 := by
    intro i
    fin_cases i
    simp
  have hdet : (1 - (!![0] : Mat 1 1)).det ≠ 0 := by
    rw [Matrix.det_fin_one]
    simp [Matrix.sub_apply, Matrix.one_apply]
  exact ⟨hdiag, hdet, total_effects_alg_masked _ _ _ _ hdiag hdet⟩

/-- C4 (counterexample to the claim as stated): with `edy` having a zero
diagonal entry, the returned `ey` carries 1 there (from `fill_diagonal`),
not 0, contradicting "every entry of ey where edy is 0 is exactly 0". -/
theorem total_effects_alg_zero_edy_diag :
    total_effects_alg (!![0] : Mat 1 1) !![0] (some !![0]) (some !![0]) =
      Except.ok (!![0], !![1]) ∧
    (!![(0 : ℚ)] : Mat 1 1) 0 0 = 0 ∧ (!![(1 : ℚ)] : Mat 1 1) 0 0 ≠ 0 := by
  have hdiag : ∀ i, (!![0] : Mat 1 1) i i = 0 := by
    intro i
    fin_cases i
    simp
  have hdet : ¬((1 - (!![0] : Mat 1 1)).det = 0) := by
    rw [Matrix.det_fin_one]
    simp [Matrix.sub_apply, Matrix.one_apply]
  refine ⟨?_, by simp, by simp⟩
  rw [total_effects_alg_some_some _ _ _ _ hdiag hdet]
  congr 1
  refine Prod.ext ?_ ?_ <;> ext i j <;> fin_cases i <;> fin_cases j <;> simp

/-- C10: with both identification matrices `None` (as in `compute_ed`),
`total_effects_alg` returns the raw `ey = inv(I - my)` and `ex = ey @ mx`:
nothing is zeroed and the diagonal of `ey` is not forced to 1. -/
theorem total_effects_alg_none_raw {n m : ℕ} (mx : Mat n m) (my : Mat n n)
    (hdiag : ∀ i, my i i = 0) (hdet : (1 - my).det ≠ 0) :
    total_effects_alg mx my none none =
      Except.ok (npinv (1 - my) * mx, npinv (1 - my)) := by
  have hguard : ¬(0 < ∑ i, |my i i|) := by simp [hdiag]
  rw [total_effects_alg, if_neg hguard, if_neg hdet]

/-- Witness for C10 at a concrete 2×2 feedback instance; the raw returned
`ey` has diagonal entry 4/3 ≠ 1, so the unit-diagonal invariant indeed fails
without identification matrices. -/
theorem total_effects_alg_none_raw_witness :
    total_effects_alg (!![1; 0] : Mat 2 1) !![0, 1/2; 1/2, 0] none none =
      Except.ok
        (npinv (1 - (!![0, 1/2; 1/2, 0] : Mat 2 2)) * (!![1; 0] : Mat 2 1),
          npinv (1 - (!![0, 1/2; 1/2, 0] : Mat 2 2))) ∧
    npinv (1 - (!![0, 1/2; 1/2, 0] : Mat 2 2)) 0 0 ≠ 1 := by
  have hsub : (1 - (!![0, 1/2; 1/2, 0] : Mat 2 2)) = !![1, -(1/2); -(1/2), 1] := by
    ext i j
    fin_cases i <;> fin_cases j <;>
      simp [Matrix.sub_apply, Matrix.one_apply]
  have hdiag : ∀ i, (!![0, 1/2; 1/2, 0] : Mat 2 2) i i = 0 := by
    intro i
    fin_cases i <;> simp
  have hdet : (1 - (!![0, 1/2; 1/2, 0] : Mat 2 2)).det ≠ 0 := by
    rw [hsub, Matrix.det_fin_two_of]
    norm_num
  refine ⟨total_effects_alg_none_raw _ _ hdiag hdet, ?_⟩
  rw [npinv, hsub, Matrix.det_fin_two_of, Matrix.adjugate_fin_two_of]
  norm_num [Matrix.smul_apply]

/-! ## Mediation effects: `compute_mediation_effects`, `compute_mediation_std` -/

/-- `compute_mediation_effects(mx, my, ex, ey, yvars, final_var)` from
`utils.py`: select the final variable row `jvar = list(yvars).index(final_var)`
of `ex`/`ey`, and build the mediation matrices
`eyx = (eyj.reshape(ndim,1) @ ones((1,mdim))) * mx` and likewise `eyy`.
Variable symbols are modelled as natural-number identifiers; a missing
`final_var` or an out-of-range row index (Python `ValueError`/`IndexError`)
yields `none`. -/
def compute_mediation_effects {n m : ℕ} (mx : Mat n m) (my : Mat n n)
    (ex : Mat n m) (ey : Mat n n) (yvars : List ℕ) (final_var : ℕ) :
    Option ((Fin m → ℚ) × (Fin n → ℚ) × Mat n m × Mat n n) :=
  if h : final_var ∈ yvars ∧ yvars.indexOf final_var < n then
    let jvar : Fin n := ⟨yvars.indexOf final_var, h.2⟩
    let exj : Fin m → ℚ := fun q => ex jvar q
    let eyj : Fin n → ℚ := fun i => ey jvar i
    let eyx : Mat n m := hadamard
      ((Matrix.of fun i (_ : Fin 1) => eyj i) *
        (Matrix.of fun (_ : Fin 1) (_ : Fin m) => (1 : ℚ))) mx
    let eyy : Mat n n := hadamard
      ((Matrix.of fun i (_ : Fin 1) => eyj i) *
        (Matrix.of fun (_ : Fin 1) (_ : Fin n) => (1 : ℚ))) my
    some (exj, eyj, eyx, eyy)
  else none

/-- The outer product of a column vector with a row of ones, Hadamard a
matrix, is a row-scaled copy of that matrix. -/
lemma outer_ones_hadamard {n m : ℕ} (v : Fin n → ℚ) (a : Mat n m) :
    hadamard ((Matrix.of fun i (_ : Fin 1) => v i) *
      (Matrix.of fun (_ : Fin 1) (_ : Fin m) => (1 : ℚ))) a =
      Matrix.of fun i j => v i * a i j := by
  ext i j
  simp [hadamard, Matrix.mul_apply]

/-- C5: `compute_mediation_effects` returns the final variable rows of `ex`
and `ey` and the mediation matrices `eyx[i,j] = eyj[i] * mx[i,j]`,
`eyy[i,j] = eyj[i] * my[i,j]`, exactly, elementwise. -/
theorem compute_mediation_effects_spec {n m : ℕ} (mx : Mat n m) (my : Mat n n)
    (ex : Mat n m) (ey : Mat n n) (yvars : List ℕ) (final_var : ℕ)
    (jv : Fin n) (h1 : final_var ∈ yvars)
    (h2 : yvars.indexOf final_var = (jv : ℕ)) :
    compute_mediation_effects mx my ex ey yvars final_var =
      some (fun q => ex jv q, fun i => ey jv i,
        Matrix.of fun i j => ey jv i * mx i j,
        Matrix.of fun i j => ey jv i * my i j) := by
  obtain ⟨jval, hjlt⟩ := jv
  have h2v : yvars.indexOf final_var = jval := h2
  subst h2v
  rw [compute_mediation_effects, dif_pos ⟨h1, hjlt⟩]
  refine congrArg some ?_
  refine Prod.ext rfl (Prod.ext rfl (Prod.ext ?_ ?_)) <;>
    · ext i j
      simp [hadamard, Matrix.mul_apply]

/-- Witness for C5 on a hand-constructed 3-equation, 2-regressor instance. -/
theorem compute_mediation_effects_spec_witness :
    compute_mediation_effects (!![7, 8; 9, 10; 11, 12] : Mat 3 2)
        !![0, 0, 0; 1, 0, 0; 2, 3, 0] !![1, 2; 3, 4; 5, 6]
        !![1, 0, 0; 2, 1, 0; 3, 4, 1] [10, 20, 30] 30 =
      some (fun q => (!![1, 2; 3, 4; 5, 6] : Mat 3 2) 2 q,
        fun i => (!![1, 0, 0; 2, 1, 0; 3, 4, 1] : Mat 3 3) 2 i,
        Matrix.of fun i j => (!![1, 0, 0; 2, 1, 0; 3, 4, 1] : Mat 3 3) 2 i *
          (!![7, 8; 9, 10; 11, 12] : Mat 3 2) i j,
        Matrix.of fun i j => (!![1, 0, 0; 2, 1, 0; 3, 4, 1] : Mat 3 3) 2 i *
          (!![0, 0, 0; 1, 0, 0; 2, 3, 0] : Mat 3 3) i j) :=
  compute_mediation_effects_spec _ _ _ _ _ _ 2 (by decide) (by decide)

/-- `zeros_to_ones(mat)` from `utils.py`: replace zero entries by one, used to
avoid division by zero on column sums. -/
def zeros_to_ones {k : ℕ} (v : Fin k → ℚ) : Fin k → ℚ :=
  fun j => if v j = 0 then 1 else v j

/-- `compute_mediation_std(...)` from `utils.py`: tile the final variable rows
of the total-effect standard deviations, divide the mediation matrices by
their column sums (zero sums replaced by 1 via `zeros_to_ones`), and scale
elementwise. -/
def compute_mediation_std {n m : ℕ} (ex_hat_std : Mat n m)
    (ey_hat_std : Mat n n) (eyx : Mat n m) (eyy : Mat n n)
    (yvars : List ℕ) (final_var : ℕ) :
    Option ((Fin m → ℚ) × (Fin n → ℚ) × Mat n m × Mat n n) :=
  if h : final_var ∈ yvars ∧ yvars.indexOf final_var < n then
    let jvar : Fin n := ⟨yvars.indexOf final_var, h.2⟩
    let exj_hat_std : Fin m → ℚ := fun q => ex_hat_std jvar q
    let eyj_hat_std : Fin n → ℚ := fun i => ey_hat_std jvar i
    let exj_hat_std_mat : Mat n m := Matrix.of fun _ q => exj_hat_std q
    let eyj_hat_std_mat : Mat n n := Matrix.of fun _ i2 => eyj_hat_std i2
    let x_colsum : Fin m → ℚ := fun q => ∑ i, eyx i q
    let y_colsum : Fin n → ℚ := fun q => ∑ i, eyy i q
    let eyx_colnorm : Mat n m :=
      Matrix.of fun i q => eyx i q / zeros_to_ones x_colsum q
    let eyy_colnorm : Mat n n :=
      Matrix.of fun i q => eyy i q / zeros_to_ones y_colsum q
    some (exj_hat_std, eyj_hat_std,
      hadamard exj_hat_std_mat eyx_colnorm,
      hadamard eyj_hat_std_mat eyy_colnorm)
  else none

/-- C9 (amended): `compute_mediation_std` divides each column by its column
sum with zero sums replaced by 1 (so the result is always defined), and
scales by the final variable total-effect standard deviations; a column whose
entries are ALL zero yields an exactly-zero std column.  (A column that
merely sums to zero is returned unnormalized, not zeroed.) -/
theorem compute_mediation_std_spec {n m : ℕ} (ex_hat_std : Mat n m)
    (ey_hat_std : Mat n n) (eyx : Mat n m) (eyy : Mat n n)
    (yvars : List ℕ) (final_var : ℕ) (jv : Fin n) (h1 : final_var ∈ yvars)
    (h2 : yvars.indexOf final_var = (jv : ℕ)) :
    compute_mediation_std ex_hat_std ey_hat_std eyx eyy yvars final_var =
      some (fun q => ex_hat_std jv q, fun i => ey_hat_std jv i,
        Matrix.of fun i q => ex_hat_std jv q *
          (eyx i q / (if (∑ k, eyx k q) = 0 then 1 else ∑ k, eyx k q)),
        Matrix.of fun i q => ey_hat_std jv q *
          (eyy i q / (if (∑ k, eyy k q) = 0 then 1 else ∑ k, eyy k q))) ∧
      (∀ q, (∀ i, eyx i q = 0) →
        ∀ i, (ex_hat_std jv q *
          (eyx i q / (if (∑ k, eyx k q) = 0 then 1 else ∑ k, eyx k q))) = 0) ∧
      (∀ q, (∀ i, eyy i q = 0) →
        ∀ i, (ey_hat_std jv q *
          (eyy i q / (if (∑ k, eyy k q) = 0 then 1 else ∑ k, eyy k q))) = 0) := by
  obtain ⟨jval, hjlt⟩ := jv
  have h2v : yvars.indexOf final_var = jval := h2
  subst h2v
  refine ⟨?_, ?_, ?_⟩
  · rw [compute_mediation_std, dif_pos ⟨h1, hjlt⟩]
    refine congrArg some ?_
    refine Prod.ext rfl (Prod.ext rfl (Prod.ext ?_ ?_)) <;>
      · ext i q
        simp [hadamard, zeros_to_ones]
  · intro q hq i
    simp [hq i]
  · intro q hq i
    simp [hq i]

/-- Witness for the amended C9 with nonzero column sums. -/
theorem compute_mediation_std_spec_witness :
    compute_mediation_std (!![1; 1] : Mat 2 1) !![2, 0; 0, 2] !![1; 1]
        !![0, 0; 0, 0] [10, 20] 10 =
      some (fun q => (!![1; 1] : Mat 2 1) 0 q,
        fun i => (!![2, 0; 0, 2] : Mat 2 2) 0 i,
        Matrix.of fun i q => (!![1; 1] : Mat 2 1) 0 q *
          ((!![1; 1] : Mat 2 1) i q /
            (if (∑ k, (!![1; 1] : Mat 2 1) k q) = 0 then 1
              else ∑ k, (!![1; 1] : Mat 2 1) k q)),
        Matrix.of fun i q => (!![2, 0; 0, 2] : Mat 2 2) 0 q *
          ((!![0, 0; 0, 0] : Mat 2 2) i q /
            (if (∑ k, (!![0, 0; 0, 0] : Mat 2 2) k q) = 0 then 1
              else ∑ k, (!![0, 0; 0, 0] : Mat 2 2) k q))) ∧
      (∀ q, (∀ i, (!![1; 1] : Mat 2 1) i q = 0) →
        ∀ i, ((!![1; 1] : Mat 2 1) 0 q *
          ((!![1; 1] : Mat 2 1) i q /
            (if (∑ k, (!![1; 1] : Mat 2 1) k q) = 0 then 1
              else ∑ k, (!![1; 1] : Mat 2 1) k q))) = 0) ∧
      (∀ q, (∀ i, (!![0, 0; 0, 0] : Mat 2 2) i q = 0) →
        ∀ i, ((!![2, 0; 0, 2] : Mat 2 2) 0 q *
          ((!![0, 0; 0, 0] : Mat 2 2) i q /
            (if (∑ k, (!![0, 0; 0, 0] : Mat 2 2) k q) = 0 then 1
              else ∑ k, (!![0, 0; 0, 0] : Mat 2 2) k q))) = 0) :=
  compute_mediation_std_spec _ _ _ _ _ _ 0 (by decide) (by decide)

/-- C9 (counterexample to the claim as stated): a column with zero column sum
but nonzero entries is divided by 1, so its mediation-std column is NOT
exactly zero: here the `eyx` column is `[1, -1]`, its sum is 0, and the
returned std column is `[1, -1]`. -/
theorem compute_mediation_std_zero_colsum_nonzero :
    (∑ i, (!![1; -1] : Mat 2 1) i 0) = 0 ∧
    compute_mediation_std (!![1; 1] : Mat 2 1) !![0, 0; 0, 0] !![1; -1]
        !![0, 0; 0, 0] [10, 20] 10 =
      some (fun _ => (1 : ℚ), fun _ => (0 : ℚ),
        (!![1; -1] : Mat 2 1), (!![0, 0; 0, 0] : Mat 2 2)) ∧
    (!![(1 : ℚ); -1] : Mat 2 1) 0 0 ≠ 0 := by
  have hsum : (∑ i, (!![1; -1] : Mat 2 1) i 0) = 0 := by
    rw [Fin.sum_univ_two]
    norm_num
  refine ⟨hsum, ?_, by norm_num⟩
  rw [compute_mediation_std, dif_pos (by refine ⟨by decide, by decide⟩)]
  refine congrArg some ?_
  refine Prod.ext ?_ (Prod.ext ?_ (Prod.ext ?_ ?_))
  · funext q
    fin_cases q
    simp
  · funext i
    fin_cases i <;> simp
  · ext i q
    fin_cases i <;> fin_cases q <;>
      simp [hadamard, zeros_to_ones, Fin.sum_univ_two]
  · ext i q
    fin_cases i <;> fin_cases q <;>
      simp [hadamard, zeros_to_ones, Fin.sum_univ_two]

/-! ## The vec-matrix operator: `vecmat` -/

/-- Column-major (numpy F-order) flattening of a matrix, `reshape(a, n*m)`
with Fortran order:
flat position `v` holds entry `(v % n, v / n)`. -/
def flattenF {n m : ℕ} (a : Mat n m) : Fin (n * m) → ℚ := fun v =>
  if h : 0 < n then
    a ⟨v.val % n, Nat.mod_lt _ h⟩ ⟨v.val / n, Nat.div_lt_of_lt_mul v.isLt⟩
  else 0

/-- The matrix `mi` of `vecmat`: zero except for the value `c` at position
`p`. -/
def singleEntry {n m : ℕ} (p : Fin n × Fin m) (c : ℚ) : Mat n m :=
  Matrix.of fun i j => if i = p.1 ∧ j = p.2 then c else 0

/-- `vecmat(mz)` from `utils.py`, as the list of columns of the
`(rows*cols) × nnz(mz)` operator: for each nonzero position of `mz` in
column-major order (`for col: for row:`), the F-order flattening of the
single-entry matrix holding that entry of `mz`. -/
def vecmat {n m : ℕ} (mz : Mat n m) : List (Fin (n * m) → ℚ) :=
  (nzPos (posCM n m) mz).map fun p => flattenF (singleEntry p (mz p.1 p.2))

/-- The vector of nonzero entries of `mz`, enumerated column-major. -/
def nonzeroVals {n m : ℕ} (mz : Mat n m) : List ℚ :=
  (nzPos (posCM n m) mz).map fun p => mz p.1 p.2

/-- Matrix-vector product of a column list with a value list. -/
def matVecL {k : ℕ} (cols : List (Fin k → ℚ)) (vals : List ℚ) : Fin k → ℚ :=
  fun v => (List.zipWith (fun c x => c v * x) cols vals).sum

/-- The F-order flat position of an index pair. -/
def flatPos {n m : ℕ} (p : Fin n × Fin m) : Fin (n * m) :=
  ⟨p.1.val + n * p.2.val, by
    have h1 : p.1.val + n * p.2.val < n * (p.2.val + 1) := by
      rw [Nat.mul_succ]
      have := p.1.isLt
      omega
    have h2 : n * (p.2.val + 1) ≤ n * m := Nat.mul_le_mul_left n p.2.isLt
    omega⟩

lemma posCM_nodup (n m : ℕ) : (posCM n m).Nodup :=
  (((List.nodup_finRange m).product (List.nodup_finRange n)).map
    Prod.swap_injective)

lemma mem_nzPos_iff {n m : ℕ} (mz : Mat n m) (p : Fin n × Fin m) :
    p ∈ nzPos (posCM n m) mz ↔ mz p.1 p.2 ≠ 0 := by
  simp [nzPos, List.mem_filter, mem_posCM]

lemma flattenF_apply_flatPos {n m : ℕ} (a : Mat n m) (p : Fin n × Fin m) :
    flattenF a (flatPos p) = a p.1 p.2 := by
  have hn : 0 < n := p.1.pos
  have hmod : (p.1.val + n * p.2.val) % n = p.1.val := by
    rw [Nat.add_mul_mod_self_left]
    exact Nat.mod_eq_of_lt p.1.isLt
  have hdiv : (p.1.val + n * p.2.val) / n = p.2.val := by
    rw [Nat.add_mul_div_left _ _ hn, Nat.div_eq_of_lt p.1.isLt, Nat.zero_add]
  rw [flattenF, dif_pos hn]
  exact congr (congrArg a (Fin.ext hmod)) (Fin.ext hdiv)

lemma flattenF_single_ne {n m : ℕ} (p : Fin n × Fin m) (c : ℚ)
    (v : Fin (n * m)) (hv : v.val ≠ p.1.val + n * p.2.val) :
    flattenF (singleEntry p c) v = 0 := by
  have hn : 0 < n := p.1.pos
  rw [flattenF, dif_pos hn]
  rw [singleEntry, Matrix.of_apply, if_neg]
  rintro ⟨e1, e2⟩
  apply hv
  have hv1 : v.val % n = p.1.val := congrArg Fin.val e1
  have hv2 : v.val / n = p.2.val := congrArg Fin.val e2
  rw [← hv1, ← hv2]
  have hdm := Nat.div_add_mod v.val n
  omega

/-- Sum of a function mapped over a duplicate-free list, when the function
vanishes everywhere except possibly at one point. -/
lemma sum_map_single_support {α : Type} [DecidableEq α] (S : List α)
    (hS : S.Nodup) (g : α → ℚ) (p₀ : α) (hg : ∀ q, q ≠ p₀ → g q = 0) :
    (S.map g).sum = if p₀ ∈ S then g p₀ else 0 := by
  induction S with
  | nil => simp
  | cons a S ih =>
    obtain ⟨ha, hS2⟩ := List.nodup_cons.mp hS
    by_cases hap : a = p₀
    · subst hap
      rw [List.map_cons, List.sum_cons, ih hS2, if_neg ha,
        if_pos (List.mem_cons_self a S), add_zero]
    · rw [List.map_cons, List.sum_cons, hg a hap, ih hS2, zero_add]
      have hne : ¬(p₀ = a) := fun h => hap h.symm
      simp [List.mem_cons, hne]

/-- C8 (amended): for a BINARY matrix `mz`, applying `vecmat(mz)` to the
vector of nonzero entries of `mz` reproduces the column-major flattening of
`mz`; and (for any `mz`) each column of `vecmat(mz)` has exactly one nonzero
entry, equal to the corresponding entry of `mz`, located at the flattened
position of that entry.  (For non-binary `mz` the product holds the squares
of the entries, not the entries; see the counterexample.) -/
theorem vecmat_spec {n m : ℕ} (mz : Mat n m) :
    (isBinary mz → matVecL (vecmat mz) (nonzeroVals mz) = flattenF mz) ∧
    ∀ c ∈ vecmat mz, ∃ p : Fin n × Fin m, mz p.1 p.2 ≠ 0 ∧
      c (flatPos p) = mz p.1 p.2 ∧
      ∀ v : Fin (n * m), v.val ≠ (flatPos p).val → c v = 0 := by
  constructor
  · intro hb
    funext v
    have hn : 0 < n := by
      rcases Nat.eq_zero_or_pos n with h0 | h0
      · subst h0
        have := v.isLt
        omega
      · exact h0
    set p₀ : Fin n × Fin m :=
      (⟨v.val % n, Nat.mod_lt _ hn⟩,
       ⟨v.val / n, Nat.div_lt_of_lt_mul v.isLt⟩) with hp₀
    have hflat : flattenF mz v = mz p₀.1 p₀.2 := by
      rw [flattenF, dif_pos hn]
    have hvval : v.val = p₀.1.val + n * p₀.2.val := by
      have hdm := Nat.div_add_mod v.val n
      simp only [hp₀]
      omega
    have hcols : matVecL (vecmat mz) (nonzeroVals mz) v =
        ((nzPos (posCM n m) mz).map fun p =>
          flattenF (singleEntry p (mz p.1 p.2)) v * mz p.1 p.2).sum := by
      rw [matVecL, vecmat, nonzeroVals, List.zipWith_map,
        List.zipWith_same]
    rw [hcols, hflat]
    have hg : ∀ q : Fin n × Fin m, q ≠ p₀ →
        flattenF (singleEntry q (mz q.1 q.2)) v * mz q.1 q.2 = 0 := by
      intro q hq
      rw [flattenF_single_ne q _ v, zero_mul]
      intro hvq
      apply hq
      have hq1 : q.1.val = v.val % n := by
        rw [hvq, Nat.add_mul_mod_self_left, Nat.mod_eq_of_lt q.1.isLt]
      have hq2 : q.2.val = v.val / n := by
        rw [hvq, Nat.add_mul_div_left _ _ hn, Nat.div_eq_of_lt q.1.isLt,
          Nat.zero_add]
      refine Prod.ext (Fin.ext ?_) (Fin.ext ?_)
      · rw [hq1, hp₀]
      · rw [hq2, hp₀]
    rw [sum_map_single_support (nzPos (posCM n m) mz)
      ((posCM_nodup n m).filter _) _ p₀ hg]
    by_cases hz : mz p₀.1 p₀.2 = 0
    · rw [if_neg, hz]
      rw [mem_nzPos_iff]
      exact fun hc => hc hz
    · rw [if_pos ((mem_nzPos_iff mz p₀).mpr hz)]
      have hv₀ : v = flatPos p₀ := Fin.ext hvval
      rw [hv₀, flattenF_apply_flatPos]
      rcases hb p₀.1 p₀.2 with h0 | h1
      · exact absurd h0 hz
      · rw [h1]
        simp [singleEntry]
  · intro c hc
    obtain ⟨p, hpS, hpc⟩ := List.mem_map.mp hc
    refine ⟨p, (mem_nzPos_iff mz p).mp hpS, ?_, ?_⟩
    · rw [← hpc, flattenF_apply_flatPos, singleEntry, Matrix.of_apply,
        if_pos ⟨rfl, rfl⟩]
    · intro v hv
      rw [← hpc]
      exact flattenF_single_ne p _ v hv

/-- Witness for the amended C8 on a concrete binary matrix, discharging the
binarity hypothesis of the reproduction conjunct. -/
theorem vecmat_spec_witness :
    isBinary (!![1] : Mat 1 1) ∧
    matVecL (vecmat (!![1] : Mat 1 1)) (nonzeroVals !![1]) =
      flattenF (!![1] : Mat 1 1) ∧
    ∀ c ∈ vecmat (!![1] : Mat 1 1), ∃ p : Fin 1 × Fin 1,
      (!![1] : Mat 1 1) p.1 p.2 ≠ 0 ∧
      c (flatPos p) = (!![1] : Mat 1 1) p.1 p.2 ∧
      ∀ v : Fin (1 * 1), v.val ≠ (flatPos p).val → c v = 0 :=
  ⟨by decide, (vecmat_spec !![1]).1 (by decide), (vecmat_spec !![1]).2⟩

/-- C8 (counterexample to the claim as stated): for the non-binary matrix
`[[2]]`, the operator column holds the VALUE 2, so applying it to the
nonzero-entry vector `[2]` yields 4, not the flattened entry 2. -/
theorem vecmat_not_reproducing :
    matVecL (vecmat (!![2] : Mat 1 1)) (nonzeroVals !![2])
        (⟨0, by norm_num⟩ : Fin (1 * 1)) = 4 ∧
    flattenF (!![2] : Mat 1 1) (⟨0, by norm_num⟩ : Fin (1 * 1)) = 2 ∧
    matVecL (vecmat (!![2] : Mat 1 1)) (nonzeroVals !![2]) ≠
      flattenF (!![2] : Mat 1 1) := by
  have hS : vecmat (!![2] : Mat 1 1) =
      [flattenF (singleEntry ((0 : Fin 1), (0 : Fin 1)) 2)] := by decide
  have hV : nonzeroVals (!![2] : Mat 1 1) = [(2 : ℚ)] := by decide
  have h1 : matVecL (vecmat (!![2] : Mat 1 1)) (nonzeroVals !![2])
      (⟨0, by norm_num⟩ : Fin (1 * 1)) = 4 := by
    rw [matVecL, hS, hV]
    norm_num [flattenF, singleEntry]
  have h2 : flattenF (!![2] : Mat 1 1) (⟨0, by norm_num⟩ : Fin (1 * 1)) = 2 := by
    norm_num [flattenF]
  refine ⟨h1, h2, fun heq => ?_⟩
  have h4 := congrFun heq (⟨0, by norm_num⟩ : Fin (1 * 1))
  rw [h1, h2] at h4
  norm_num at h4

/-! ## The AD optimization loop: `optimize_ssn` -/

/-- `rel = 0.00001`, the relative convergence tolerance of `optimize_ssn`. -/
def rel : ℚ := 1 / 100000

/-- `epochs_min = 90` of `optimize_ssn`. -/
def epochs_min : ℕ := 90

/-- `nr_conv_min = 5` of `optimize_ssn`. -/
def nr_conv_min : ℕ := 5

/-- The `sse` value held after `t` completed loop iterations, given the
sequence `sses` of objective values the optimizer produces: initialized to
`torch.DoubleTensor([0])`, then iteration `t` stores `sses t`. -/
def sseAt (sses : ℕ → ℚ) : ℕ → ℚ
  | 0 => 0
  | t + 1 => sses t

/-- One convergence test `abs(sse - sse_old) / sse_old < rel`.  A zero
`sse_old` produces `inf`/`nan` in float arithmetic, which never compares
below `rel`, so the test is false in that case. -/
def convStep (sse_old sse : ℚ) : Bool :=
  if sse_old = 0 then false else decide (|sse - sse_old| / sse_old < rel)

/-- The `nr_conv` counter after `t` completed iterations: incremented by one
after a step passing the relative-change test, reset to 0 otherwise. -/
def nr_conv (sses : ℕ → ℚ) : ℕ → ℕ
  | 0 => 0
  | t + 1 =>
    if convStep (sseAt sses t) (sseAt sses (t + 1)) then nr_conv sses t + 1
    else 0

/-- The `while epoch < epochs_min or nr_conv < nr_conv_min` condition of
`optimize_ssn`, evaluated at the loop head after `t` completed iterations:
the loop runs another iteration iff this is `true`, and `optimize_ssn`
returns only when it is `false`. -/
def optimize_ssn_continues (sses : ℕ → ℚ) (t : ℕ) : Bool :=
  decide (t < epochs_min) || decide (nr_conv sses t < nr_conv_min)

/-- C6: the loop can only exit with `epoch ≥ 90` AND `nr_conv ≥ 5`, and
after any iteration that reset the counter, one further small-relative-change
step can never terminate the loop. -/
theorem optimize_ssn_no_early_stop (sses : ℕ → ℚ) (t : ℕ)
    (h : optimize_ssn_continues sses t = false) :
    (epochs_min ≤ t ∧ nr_conv_min ≤ nr_conv sses t) ∧
    ∀ s, nr_conv sses s = 0 → optimize_ssn_continues sses (s + 1) = true := by
  constructor
  · simp only [optimize_ssn_continues, Bool.or_eq_false_iff,
      decide_eq_false_iff_not, Nat.not_lt] at h
    exact h
  · intro s hs
    have hle : nr_conv sses (s + 1) ≤ 1 := by
      rw [nr_conv]
      by_cases hc : convStep (sseAt sses s) (sseAt sses (s + 1)) = true
      · rw [if_pos hc, hs]
      · rw [if_neg hc]
        omega
    simp only [optimize_ssn_continues, Bool.or_eq_true,
      decide_eq_true_eq]
    right
    rw [nr_conv_min]
    omega

lemma convStep_one_one : convStep 1 1 = true := by
  rw [convStep, if_neg (by norm_num)]
  rw [decide_eq_true_eq]
  norm_num [rel]

lemma nr_conv_const_one (t : ℕ) : nr_conv (fun _ => (1 : ℚ)) (t + 1) = t := by
  induction t with
  | zero =>
    rw [nr_conv, if_neg]
    rw [show sseAt (fun _ => (1 : ℚ)) 0 = 0 from rfl,
      show sseAt (fun _ => (1 : ℚ)) 1 = 1 from rfl]
    rw [convStep, if_pos rfl]
    exact Bool.false_ne_true
  | succ k ih =>
    rw [nr_conv, if_pos, ih]
    rw [show sseAt (fun _ => (1 : ℚ)) (k + 1) = 1 from rfl,
      show sseAt (fun _ => (1 : ℚ)) (k + 2) = 1 from rfl]
    exact convStep_one_one

/-- Witness for C6: a run whose objective is constantly 1 converges every
step after the first; its loop condition first turns false at epoch 95
(90 iterations floor plus the reset at step one plus five converged steps),
and the theorem applies there. -/
theorem optimize_ssn_no_early_stop_witness :
    optimize_ssn_continues (fun _ => (1 : ℚ)) 95 = false ∧
    ((epochs_min ≤ 95 ∧ nr_conv_min ≤ nr_conv (fun _ => (1 : ℚ)) 95) ∧
      ∀ s, nr_conv (fun _ => (1 : ℚ)) s = 0 →
        optimize_ssn_continues (fun _ => (1 : ℚ)) (s + 1) = true) := by
  have h95 : nr_conv (fun _ => (1 : ℚ)) 95 = 94 := nr_conv_const_one 94
  have hcont : optimize_ssn_continues (fun _ => (1 : ℚ)) 95 = false := by
    simp [optimize_ssn_continues, h95, epochs_min, nr_conv_min]
  exact ⟨hcont, optimize_ssn_no_early_stop _ _ hcont⟩

/-! ## The estimation postcondition: `estimate_snn` -/

/-- `numpy.allclose(a, b)` with the default tolerances
`rtol = 1e-5`, `atol = 1e-8`: elementwise `|a - b| <= atol + rtol * |b|`. -/
abbrev npAllclose {n m : ℕ} (a b : Mat n m) : Prop :=
  ∀ i j, |a i j - b i j| ≤ 1 / 100000000 + (1 / 100000) * |b i j|

/-- The return path of `estimate_snn` from `utils.py`: the optimization
final `mx`, `my`, `sse` of the loop (abstracted here as inputs) pass through the
two post-loop statements `assert allclose(mx, mx * idx)` and
`assert allclose(my, my * idy)`; the fitted matrices are returned unchanged
only if both asserts pass (a failing `assert` raises, modelled as `none`).
No assertion runs inside the loop. -/
def estimate_snn_check {n m : ℕ} (idx : Mat n m) (idy : Mat n n)
    (mx : Mat n m) (my : Mat n n) (sse : ℚ) :
    Option (Mat n m × Mat n n × ℚ) :=
  if npAllclose mx (hadamard mx idx) ∧ npAllclose my (hadamard my idy) then
    some (mx, my, sse)
  else none

/-- C7 (amended): whenever `estimate_snn` returns, the fitted matrices are
`allclose` to their own masked products with `idx`/`idy` — this is asserted
once, after the loop, not on every iteration — and hence every entry outside
the identified support is at most `1e-8` in absolute value (but not
necessarily exactly 0). -/
theorem estimate_snn_check_spec {n m : ℕ} (idx : Mat n m) (idy : Mat n n)
    (mx : Mat n m) (my : Mat n n) (sse : ℚ) (r : Mat n m × Mat n n × ℚ)
    (h : estimate_snn_check idx idy mx my sse = some r) :
    r = (mx, my, sse) ∧
    npAllclose r.1 (hadamard r.1 idx) ∧
    npAllclose r.2.1 (hadamard r.2.1 idy) ∧
    (∀ i j, idx i j = 0 → |r.1 i j| ≤ 1 / 100000000) ∧
    (∀ i j, idy i j = 0 → |r.2.1 i j| ≤ 1 / 100000000) := by
  rw [estimate_snn_check] at h
  by_cases hc : npAllclose mx (hadamard mx idx) ∧
      npAllclose my (hadamard my idy)
  · rw [if_pos hc] at h
    have hr : r = (mx, my, sse) := (Option.some.inj h).symm
    subst hr
    refine ⟨rfl, hc.1, hc.2, ?_, ?_⟩
    · intro i j h0
      have hcl := hc.1 i j
      rw [hadamard, Matrix.of_apply, h0, mul_zero] at hcl
      simp only [sub_zero, abs_zero, mul_zero, add_zero] at hcl
      exact hcl
    · intro i j h0
      have hcl := hc.2 i j
      rw [hadamard, Matrix.of_apply, h0, mul_zero] at hcl
      simp only [sub_zero, abs_zero, mul_zero, add_zero] at hcl
      exact hcl
  · rw [if_neg hc] at h
    exact Option.noConfusion h

/-- Witness for the amended C7 at a concrete passing instance. -/
theorem estimate_snn_check_spec_witness :
    estimate_snn_check (!![1] : Mat 1 1) !![0] !![5] !![0] 0 =
        some (!![5], !![0], 0) ∧
    ((!![5], !![0], (0 : ℚ)) = ((!![5] : Mat 1 1), (!![0] : Mat 1 1), (0 : ℚ)) ∧
      npAllclose (!![5] : Mat 1 1) (hadamard !![5] !![1]) ∧
      npAllclose (!![0] : Mat 1 1) (hadamard !![0] !![0]) ∧
      (∀ i j, (!![1] : Mat 1 1) i j = 0 → |(!![5] : Mat 1 1) i j| ≤ 1 / 100000000) ∧
      (∀ i j, (!![0] : Mat 1 1) i j = 0 → |(!![0] : Mat 1 1) i j| ≤ 1 / 100000000)) := by
  have hsome : estimate_snn_check (!![1] : Mat 1 1) !![0] !![5] !![0] 0 =
      some (!![5], !![0], 0) := by
    rw [estimate_snn_check, if_pos]
    constructor <;> intro i j <;> fin_cases i <;> fin_cases j <;>
      norm_num [hadamard]
  exact ⟨hsome, estimate_snn_check_spec _ _ _ _ _ _ hsome⟩

/-- C7 (counterexample to the claim as stated): a coefficient `1e-9` outside
the identified support (`idx == 0`) passes the post-loop `allclose` assert
(tolerance `1e-8`), so `estimate_snn` returns matrices that do NOT exactly
equal their masked products. -/
theorem estimate_snn_check_not_exact :
    estimate_snn_check (!![0] : Mat 1 1) !![0] !![1 / 1000000000] !![0] 0 =
        some (!![1 / 1000000000], !![0], 0) ∧
    (!![(1 : ℚ) / 1000000000] : Mat 1 1) ≠
      hadamard !![1 / 1000000000] !![0] := by
  constructor
  · rw [estimate_snn_check, if_pos]
    constructor <;> intro i j <;> fin_cases i <;> fin_cases j <;>
      norm_num [hadamard, abs_le]
  · intro heq
    have hent := congrFun (congrFun heq 0) 0
    rw [hadamard] at hent
    norm_num at hent

end Causing
